import Mathlib

/-!
Shallow embedding of `fdbserver/workloads/BlobGranuleRangesWorkload.actor.cpp`
(the BlobGranuleRanges test workload) and proofs about it.

Keys are byte strings, modelled as `List Nat` (each entry a byte value).
Ranges are half-open intervals over the lexicographic byte order.
-/

namespace BlobGranuleRanges

/-- A key is a byte string, modelled as a list of byte values. -/
abbrev Key := List Nat

/-- Strict lexicographic order on byte strings (a proper-prefix string is
smaller than its extensions). -/
def keyLt : Key → Key → Bool
  | [], [] => false
  | [], _ :: _ => true
  | _ :: _, [] => false
  | a :: as, b :: bs => decide (a < b) || (decide (a = b) && keyLt as bs)

/-- Non-strict lexicographic order on byte strings. -/
def keyLe (a b : Key) : Bool := keyLt a b || decide (a = b)

/-- A half-open key range `[beginKey, endKey)`, after `KeyRangeRef`. -/
structure KeyRange where
  beginKey : Key
  endKey : Key
deriving DecidableEq

/-- Membership of a key in a half-open range, after `KeyRangeRef::contains`. -/
def inRange (k : Key) (r : KeyRange) : Bool :=
  keyLe r.beginKey k && keyLt k r.endKey

/-- Two key ranges are disjoint when no key lies in both. -/
def keyRangesDisjoint (r1 r2 : KeyRange) : Prop :=
  ∀ k : Key, ¬(inRange k r1 = true ∧ inRange k r2 = true)

/-- The `strinc` helper of flow: drop trailing `0xff` bytes, then increment
the final remaining byte.  `[a, strinc a)` is exactly the set of keys with
prefix `a` when `a` has no `0xff` byte. -/
def strinc : Key → Key
  | [] => []
  | a :: rest =>
    let tail := strinc rest
    if tail.isEmpty then (if a = 255 then [] else [a + 1]) else a :: tail

/-- Byte value of the lowercase hexadecimal digit character for `d < 16`,
as produced by `format("%x", ...)`. -/
def hexDigitChar (d : Nat) : Nat := if d < 10 then 48 + d else 87 + d

/-- Zero-padded fixed-width lowercase hexadecimal rendering of `v` (as byte
values), after `format("%0<w>x", v)` for values that fit in `w` digits. -/
def hexPad (w v : Nat) : Key :=
  match w with
  | 0 => []
  | w + 1 => hexPad w (v / 16) ++ [hexDigitChar (v % 16)]

/-- The key produced for a driver range: the `"R_"` prefixed `%08x` rendering
of the `nextKey` counter, after `registerNewRange` and `newKey`. -/
def driverKey (v : Nat) : Key := [82, 95] ++ hexPad 8 v

/-- The single-key-wide range the driver registers for counter value `v`:
`KeyRangeRef(k, strinc(k))` for `k = "R_" + format("%08x", v)`. -/
def driverRange (v : Nat) : KeyRange := ⟨driverKey v, strinc (driverKey v)⟩

/-- The value of the `nextKey` counter of client `clientId` after its
`i`-th sequential `newKey` call: it is initialized to `10000000 * clientId`
and incremented by `sequentialGap` before each use. -/
def clientKeyVal (clientId gap i : Nat) : Nat := 10000000 * clientId + gap * i

/-! ### Seed-derived settings (workload constructor, lines 69-84)

The constructor consumes `wcx.sharedRandomNumber` (a C++ `int64_t`) with
truncating division and remainder, which Lean models with `Int.tdiv` and
`Int.tmod`. -/

/-- The seed value remaining after the `targetRanges` derivation consumed
`rand % 10`: the constructor then executes `rand /= 10`. -/
def seedAfterTarget (seed : Int) : Int := seed.tdiv 10

/-- The `sequential` flag: `sequential = rand % 2` (C++ int-to-bool, nonzero
is true) on the seed remaining after the `targetRanges` step. -/
def sequentialOf (seed : Int) : Bool := (seedAfterTarget seed).tmod 2 != 0

/-- The seed value remaining after the `sequential` derivation:
`rand /= 2`. -/
def seedAfterSequential (seed : Int) : Int := (seedAfterTarget seed).tdiv 2

/-- The `sequentialGap` setting: `sequentialGap = 1 + rand % 2` on the seed
remaining after the `sequential` step. -/
def sequentialGapOf (seed : Int) : Int := 1 + (seedAfterSequential seed).tmod 2

/-! ### targetRanges derivation (constructor lines 70-75)

`targetRanges` starts as the `randomExp` draw `e`, is multiplied by the
uniform factor in `[0.8, 1.2]` (a C++ `double`; the store back into the
`int` truncates toward zero), is divided by `clientCount` with C++ integer
division, and is clamped up to 1 when nonpositive.  The real arithmetic is
modelled exactly over `ℚ`; all quantities here are nonnegative, where
truncation toward zero coincides with `Int.floor`. -/

/-- The `targetRanges` value computed by the constructor, parameterized by
the `randomExp` draw `e` and the uniform factor `0.8 + random01() * 0.4`. -/
def targetRangesOf (e : Nat) (factor : ℚ) (clientCount : Nat) : Int :=
  let t1 : Int := ⌊(e : ℚ) * factor⌋
  let t2 : Int := t1.tdiv clientCount
  if t2 ≤ 0 then 1 else t2

/-- Follows the words of the spec, for comparison with `targetRangesOf`:
`max(1, round(exp_random(...) * uniform(0.8, 1.2) / clientCount))`. -/
def targetRangesSpec (e : Nat) (factor : ℚ) (clientCount : Nat) : Int :=
  max 1 (round ((e : ℚ) * factor / (clientCount : ℚ)))

/-! ### Adapter-call traces of the unit-test scenarios

Each scenario actor is embedded as the sequence of adapter calls it issues,
in program order, together with the result value the scenario asserts
(`ASSERT`) or proceeds with.  `checkRange` invocations appear as single
steps here; their own adapter calls are modelled separately by
`checkRangeCalls`. -/

/-- One observable step of a scenario: an adapter call together with the
result the code asserts or awaits. -/
inductive Step
  | setRange (r : KeyRange) (activate : Bool) (asserted : Bool)
  | checkRange (r : KeyRange) (isActive : Bool)
  | listBlobbified (r : KeyRange) (limit : Nat)
  | getGranules (r : KeyRange) (limit : Nat)
  | isRangeActive (r : KeyRange) (asserted : Bool)
  | purge (r : KeyRange) (version : Int) (tenant : Option Key) (force : Bool)
  | waitPurge
deriving DecidableEq

/-- The range an adapter call targets (`waitPurge` takes only the purge
key). -/
def stepRange : Step → Option KeyRange
  | .setRange r _ _ => some r
  | .checkRange r _ => some r
  | .listBlobbified r _ => some r
  | .getGranules r _ => some r
  | .isRangeActive r _ => some r
  | .purge r _ _ _ => some r
  | .waitPurge => none

/-- The `activeRange` of `verifyRangeUnit` and `blobbifyIdempotentUnit`:
`KeyRangeRef(range.begin.withSuffix("A"), range.begin.withSuffix("B"))`. -/
def activeRangeOf (range : KeyRange) : KeyRange :=
  ⟨range.beginKey ++ [65], range.beginKey ++ [66]⟩

/-- The `subRange` of `rangesMisalignedUnit`: the same construction with
suffixes `"A"` and `"B"`. -/
def subRangeOf (range : KeyRange) : KeyRange :=
  ⟨range.beginKey ++ [65], range.beginKey ++ [66]⟩

/-- The `middleKey` of the scenarios: `range.begin.withSuffix("AF")`. -/
def middleKeyOf (range : KeyRange) : Key := range.beginKey ++ [65, 70]

/-- The `middleKey2` of `blobbifyIdempotentUnit`:
`range.begin.withSuffix("AG")`. -/
def middleKey2Of (range : KeyRange) : Key := range.beginKey ++ [65, 71]

/-- The adapter calls of `tearDownRangeAfterUnit`: force-purge with version 1
and empty tenant, await the purge key, then unblobbify, asserted
successful. -/
def tearDownSteps (r : KeyRange) : List Step :=
  [.purge r 1 none true, .waitPurge, .setRange r false true]

/-- The adapter calls of `verifyRangeUnit` on the outer range. -/
def verifyRangeSteps (range : KeyRange) : List Step :=
  [.setRange (activeRangeOf range) true true,
   .checkRange (activeRangeOf range) true,
   .isRangeActive ⟨(activeRangeOf range).beginKey, middleKeyOf range⟩ true,
   .isRangeActive ⟨middleKeyOf range, (activeRangeOf range).endKey⟩ true,
   .isRangeActive range false,
   .isRangeActive ⟨range.beginKey, (activeRangeOf range).beginKey⟩ false,
   .isRangeActive ⟨(activeRangeOf range).endKey, range.endKey⟩ false,
   .isRangeActive ⟨range.beginKey, middleKeyOf range⟩ false,
   .isRangeActive ⟨middleKeyOf range, range.endKey⟩ false,
   .isRangeActive ⟨range.beginKey, (activeRangeOf range).endKey⟩ false,
   .isRangeActive ⟨(activeRangeOf range).beginKey, range.endKey⟩ false]
  ++ tearDownSteps (activeRangeOf range)

/-- The boundary list built by `verifyRangeGapUnit`: the outer begin key,
then `range.begin.withSuffix(format("%04x", i))` for
`i = 0 .. rangeCount - 2`, then the outer end key. -/
def gapBoundaries (range : KeyRange) (rangeCount : Nat) : List Key :=
  [range.beginKey]
  ++ (List.range (rangeCount - 1)).map (fun i => range.beginKey ++ hexPad 4 i)
  ++ [range.endKey]

/-- The steps `verifyRangeGapUnit` takes for sub-range `i`: blobbify plus an
active check away from the gap index, an inactive check at the gap index. -/
def gapSubSteps (boundaries : List Key) (rangeToNotBlobbify i : Nat) : List Step :=
  let sub : KeyRange := ⟨boundaries.getD i [], boundaries.getD (i + 1) []⟩
  if i ≠ rangeToNotBlobbify then [.setRange sub true true, .checkRange sub true]
  else [.checkRange sub false]

/-- The adapter calls of `verifyRangeGapUnit`, parameterized by the drawn
`rangeCount` and the drawn gap index `rangeToNotBlobbify`. -/
def verifyRangeGapSteps (range : KeyRange) (rangeCount rangeToNotBlobbify : Nat) :
    List Step :=
  let boundaries := gapBoundaries range rangeCount
  ((List.range rangeCount).map (gapSubSteps boundaries rangeToNotBlobbify)).flatten
  ++ [.isRangeActive range false]
  ++ (if rangeToNotBlobbify ≠ 0 then
        tearDownSteps ⟨boundaries.getD 0 [], boundaries.getD rangeToNotBlobbify []⟩
      else [])
  ++ (if rangeToNotBlobbify ≠ rangeCount - 1 then
        tearDownSteps ⟨boundaries.getD (rangeToNotBlobbify + 1) [],
                       (boundaries.getLast?).getD []⟩
      else [])

/-- The adapter calls of `rangesMisalignedUnit`.  Both purge calls pass
`force = false` in the source (lines 427 and 437), although the second is
bound to `forcePurgeKey` and commented as a force purge. -/
def rangesMisalignedSteps (range : KeyRange) : List Step :=
  [.setRange range true true,
   .listBlobbified range 1000000,
   .getGranules range 1000000,
   .purge (subRangeOf range) 1 none false,
   .waitPurge,
   .isRangeActive (subRangeOf range) true,
   .isRangeActive range true,
   .purge (subRangeOf range) 1 none false,
   .waitPurge,
   .isRangeActive (subRangeOf range) false,
   .isRangeActive range false,
   .getGranules range 1000000]

/-- The adapter calls of `blobbifyIdempotentUnit`, parameterized by the
coin flip that guards the optional leading unblobbify.  After the awaited
force purge, the source issues eight misaligned unblobbify calls asserted
false and then calls `setRange(activeRange, true)` twice (both asserted
true, bound to `unblobbifySuccess` and `unblobbifySuccessAgain`). -/
def blobbifyIdempotentSteps (range : KeyRange) (coinflip : Bool) : List Step :=
  (if coinflip then [Step.setRange (activeRangeOf range) false true] else [])
  ++ [.setRange (activeRangeOf range) true true,
      .checkRange (activeRangeOf range) true,
      .setRange (activeRangeOf range) true true,
      .checkRange (activeRangeOf range) true,
      .setRange range true false,
      .setRange ⟨range.beginKey, (activeRangeOf range).endKey⟩ true false,
      .setRange ⟨(activeRangeOf range).beginKey, range.endKey⟩ true false,
      .setRange ⟨range.beginKey, middleKeyOf range⟩ true false,
      .setRange ⟨middleKeyOf range, range.endKey⟩ true false,
      .setRange ⟨(activeRangeOf range).beginKey, middleKeyOf range⟩ true false,
      .setRange ⟨middleKeyOf range, (activeRangeOf range).endKey⟩ true false,
      .setRange ⟨middleKeyOf range, middleKey2Of range⟩ true false,
      .listBlobbified range 1000000,
      .getGranules range 1000000,
      .purge range 1 none true,
      .waitPurge,
      .setRange range false false,
      .setRange ⟨range.beginKey, (activeRangeOf range).endKey⟩ false false,
      .setRange ⟨(activeRangeOf range).beginKey, range.endKey⟩ false false,
      .setRange ⟨(activeRangeOf range).beginKey, middleKeyOf range⟩ false false,
      .setRange ⟨middleKeyOf range, (activeRangeOf range).endKey⟩ false false,
      .setRange ⟨(activeRangeOf range).beginKey, middleKeyOf range⟩ false false,
      .setRange ⟨middleKeyOf range, (activeRangeOf range).endKey⟩ false false,
      .setRange ⟨middleKeyOf range, middleKey2Of range⟩ false false,
      .setRange (activeRangeOf range) true true,
      .setRange (activeRangeOf range) true true]

/-- The adapter calls of `reBlobbifyUnit`. -/
def reBlobbifySteps (range : KeyRange) : List Step :=
  [.setRange range true true,
   .checkRange range true,
   .purge range 1 none true,
   .waitPurge,
   .checkRange range false,
   .setRange range false true,
   .checkRange range false,
   .setRange range true true,
   .checkRange range true]
  ++ tearDownSteps range

/-- The adapter calls of `unregisterRandomRange` on the chosen range,
parameterized by the coin flip that guards the optional force purge. -/
def unregisterSteps (r : KeyRange) (coinflip : Bool) : List Step :=
  (if coinflip then [Step.purge r 1 none true, Step.waitPurge] else [])
  ++ [.setRange r false true]

/-- The adapter calls issued by one `checkRange` invocation: at least one
`verifyBlobRange` poll (the first `verifyTries` of them observing the
opposite answer), one `listBlobbifiedRanges` call, and at least one
`getBlobGranuleRanges` transaction attempt, all on the checked range. -/
def checkRangeCalls (r : KeyRange) (isActive : Bool) (verifyTries granuleTries : Nat) :
    List Step :=
  List.replicate verifyTries (.isRangeActive r (!isActive))
  ++ [.isRangeActive r isActive]
  ++ [.listBlobbified r 1000000]
  ++ List.replicate (granuleTries + 1) (.getGranules r 1000000)

/-- The per-range checks spawned by `_check`: one `checkRange(r, true)` per
range of the active list; the loop over the inactive list is commented
out in the source. -/
def checkPhaseChecks (activeRanges : List KeyRange) : List (KeyRange × Bool) :=
  activeRanges.map (fun r => (r, true))

/-- All adapter calls issued by the check phase, parameterized by the retry
counts of each spawned `checkRange`. -/
def checkPhaseCalls (activeRanges : List KeyRange) (verifyTries granuleTries : Nat) :
    List Step :=
  (activeRanges.map (fun r => checkRangeCalls r true verifyTries granuleTries)).flatten

/-- Whether every adapter call in `calls` leaves the range `r` untouched. -/
def checkerAvoids (calls : List Step) (r : KeyRange) : Bool :=
  calls.all fun s => stepRange s != some r

/-! ### Unit-runner dispatch (`blobGranuleRangesUnitTests`) -/

/-- Scenario tag `VERIFY_RANGE_UNIT` of the `UnitTestTypes` enum. -/
def VERIFY_RANGE_UNIT : Nat := 0

/-- Scenario tag `VERIFY_RANGE_GAP_UNIT` of the `UnitTestTypes` enum. -/
def VERIFY_RANGE_GAP_UNIT : Nat := 1

/-- Scenario tag `RANGES_MISALIGNED` of the `UnitTestTypes` enum. -/
def RANGES_MISALIGNED : Nat := 2

/-- Scenario tag `BLOBBIFY_IDEMPOTENT` of the `UnitTestTypes` enum. -/
def BLOBBIFY_IDEMPOTENT : Nat := 3

/-- Scenario tag `RE_BLOBBIFY` of the `UnitTestTypes` enum. -/
def RE_BLOBBIFY : Nat := 4

/-- The `OP_COUNT` sentinel of the `UnitTestTypes` enum. -/
def OP_COUNT : Nat := 5

/-- The excluded scenario set built each iteration of the unit runner:
`OP_COUNT` plus the two scenarios disabled pending bug fixes. -/
def excludedTypes : List Nat := [OP_COUNT, RANGES_MISALIGNED, RE_BLOBBIFY]

/-- The operation-selection loop of the unit runner: draw from the stream of
`randomInt(0, OP_COUNT)` values until the draw is not excluded, giving up
when `loopTries` is exhausted (the source asserts `loopTries >= 0`). -/
def pickOp : Nat → List Nat → Option Nat
  | _, [] => none
  | 0, c :: _ => if c ∈ excludedTypes then none else some c
  | t + 1, c :: cs => if c ∈ excludedTypes then pickOp t cs else some c

/-- The dispatch chain of the unit runner body, mapping the selected tag to
the trace of the scenario it runs. -/
def dispatchUnit (op : Nat) (range : KeyRange) (coinflip : Bool)
    (rangeCount rangeToNotBlobbify : Nat) : List Step :=
  if op = VERIFY_RANGE_UNIT then verifyRangeSteps range
  else if op = VERIFY_RANGE_GAP_UNIT then
    verifyRangeGapSteps range rangeCount rangeToNotBlobbify
  else if op = RANGES_MISALIGNED then rangesMisalignedSteps range
  else if op = BLOBBIFY_IDEMPOTENT then blobbifyIdempotentSteps range coinflip
  else if op = RE_BLOBBIFY then reBlobbifySteps range
  else []

/-! ### Purge-call parameters -/

/-- The parameter tuples of all `purgeBlobGranules` calls in a trace. -/
def purgeParamsOf (l : List Step) : List (KeyRange × Int × Option Key × Bool) :=
  l.filterMap fun s =>
    match s with
    | .purge r v t f => some (r, v, t, f)
    | _ => none

/-- Whether a step, if it is a purge, passes version 1 and an empty
tenant. -/
def purgeStepOk : Step → Bool
  | .purge _ v t _ => decide (v = 1) && decide (t = none)
  | _ => true

/-- Whether every purge call in a trace passes version 1 and an empty
tenant. -/
def purgesOk (l : List Step) : Bool := l.all purgeStepOk

/-- Modelled from the spec: `rangeCount` of `verifyRangeGapUnit` is drawn as
`deterministicRandom()->randomExp(3, 6) + 1`; `DeterministicRandom::randomExp`
(flow) is not among the sources here, and the spec states the resulting
`rangeCount` lies in `[2, 7]`. -/
def gapRangeCount (choice : Nat) : Nat := 2 + choice % 6

/-! ## Claim C1: the two calls after the eight failed unblobbify calls -/

/-- C1 counterexample: in `blobbifyIdempotentUnit`, after the force purge is
awaited and the eight misaligned unblobbify calls fail, the final two steps
are NOT `unblobbify(activeRange)` asserted true: at the concrete outer range
`["U_x", "U_y")` with the leading coin flip false, the steps after index 24
differ from two unblobbify calls on the active range. -/
theorem blobbifyIdempotent_tail_not_unblobbify :
    (blobbifyIdempotentSteps ⟨[85, 95, 120], [85, 95, 121]⟩ false).drop 24 ≠
      [Step.setRange (activeRangeOf ⟨[85, 95, 120], [85, 95, 121]⟩) false true,
       Step.setRange (activeRangeOf ⟨[85, 95, 120], [85, 95, 121]⟩) false true] := by
  decide

/-- C1 amended: after the awaited force purge, `blobbifyIdempotentUnit`
issues the eight misaligned unblobbify calls, each asserted false, and then
issues `setRange(activeRange, true)` — a blobbify, not an unblobbify — twice,
each asserted true (the results are bound to `unblobbifySuccess` and
`unblobbifySuccessAgain`). -/
theorem blobbifyIdempotent_tail (range : KeyRange) (coinflip : Bool) :
    (blobbifyIdempotentSteps range coinflip).drop (if coinflip then 17 else 16) =
      [.setRange range false false,
       .setRange ⟨range.beginKey, (activeRangeOf range).endKey⟩ false false,
       .setRange ⟨(activeRangeOf range).beginKey, range.endKey⟩ false false,
       .setRange ⟨(activeRangeOf range).beginKey, middleKeyOf range⟩ false false,
       .setRange ⟨middleKeyOf range, (activeRangeOf range).endKey⟩ false false,
       .setRange ⟨(activeRangeOf range).beginKey, middleKeyOf range⟩ false false,
       .setRange ⟨middleKeyOf range, (activeRangeOf range).endKey⟩ false false,
       .setRange ⟨middleKeyOf range, middleKey2Of range⟩ false false,
       .setRange (activeRangeOf range) true true,
       .setRange (activeRangeOf range) true true] := by
  cases coinflip <;> rfl

/-! ## Claim C2: the second purge of `rangesMisalignedUnit` -/

/-- C2: the source of `rangesMisalignedUnit` issues exactly two
`purgeBlobGranules` calls, both on the sub-range with version 1, empty
tenant, and `force = false` — the second purge, bound to `forcePurgeKey` and
commented as a force purge, also passes `force = false`. -/
theorem rangesMisaligned_purges (range : KeyRange) :
    purgeParamsOf (rangesMisalignedSteps range) =
      [(subRangeOf range, 1, none, false), (subRangeOf range, 1, none, false)] := by
  rfl

/-! ## Claim C5: the `verifyRangeGapUnit` partition -/

/-- C5: `rangeCount` lies in `[2, 7]` and the boundary list has exactly
`rangeCount + 1` entries, beginning at the outer begin key and ending at the
outer end key. -/
theorem verifyRangeGap_partition (choice : Nat) (range : KeyRange) :
    2 ≤ gapRangeCount choice ∧ gapRangeCount choice ≤ 7 ∧
    (gapBoundaries range (gapRangeCount choice)).length = gapRangeCount choice + 1 ∧
    (gapBoundaries range (gapRangeCount choice)).head? = some range.beginKey ∧
    (gapBoundaries range (gapRangeCount choice)).getLast? = some range.endKey := by
  have hmod : choice % 6 < 6 := Nat.mod_lt _ (by decide)
  refine ⟨by simp [gapRangeCount], by simp [gapRangeCount]; omega, ?_, rfl, ?_⟩
  · simp [gapBoundaries, gapRangeCount]
    omega
  · show (([range.beginKey] ++ _) ++ [range.endKey]).getLast? = some range.endKey
    rw [List.getLast?_concat]

/-! ## Claim C6: the `targetRanges` formula truncates -/

/-- C6 counterexample: with `randomExp` draw 3, uniform factor exactly 1 and
two clients, the constructor computes `targetRanges = 1` (truncating integer
division of 3 by 2) while the claimed formula rounds `1.5` to `2`. -/
theorem targetRanges_ne_spec : targetRangesOf 3 1 2 ≠ targetRangesSpec 3 1 2 := by
  have hf : (⌊((3 : Nat) : ℚ) * (1 : ℚ)⌋ : Int) = 3 := by norm_num
  have h1 : targetRangesOf 3 1 2 = 1 := by
    simp only [targetRangesOf, hf]
    decide
  have h2 : targetRangesSpec 3 1 2 = 2 := by
    have hr : round (((3 : Nat) : ℚ) * (1 : ℚ) / ((2 : Nat) : ℚ)) = 2 := by
      norm_num [round_eq]
    simp only [targetRangesSpec, hr]
    decide
  rw [h1, h2]
  decide

/-- C6 amended: `targetRanges` equals
`max(1, tdiv(trunc(exp_random * uniform(0.8, 1.2)), clientCount))` — the
double product is truncated toward zero when stored into the int and the
division by `clientCount` is C++ truncating integer division, not rounding —
and the result is always at least 1. -/
theorem targetRanges_eq_trunc (e : Nat) (factor : ℚ) (clientCount : Nat) :
    targetRangesOf e factor clientCount =
      max 1 ((⌊(e : ℚ) * factor⌋).tdiv clientCount) ∧
    1 ≤ targetRangesOf e factor clientCount := by
  unfold targetRangesOf
  set t2 : Int := (⌊(e : ℚ) * factor⌋).tdiv clientCount with ht2
  rcases le_or_lt t2 0 with h | h
  · rw [if_pos h]
    exact ⟨(max_eq_left (h.trans (by norm_num))).symm, le_refl 1⟩
  · rw [if_neg (not_le.mpr h)]
    exact ⟨(max_eq_right h).symm, h⟩

/-! ## Claim C7: `sequentialGap` and negative seeds -/

/-- C7 counterexample: the shared random number is a C++ `int64_t`; at seed
`-20` the truncating divisions and remainders of the constructor give
`sequentialGap = 1 + ((-20 / 10) / 2) % 2 = 0`, which is neither 1 nor 2. -/
theorem sequentialGap_neg_seed :
    ¬(sequentialGapOf (-20) = 1 ∨ sequentialGapOf (-20) = 2) := by
  decide

/-- C7 amended: for every nonnegative value of the shared random seed, the
derived `sequentialGap` is exactly 1 or 2. -/
theorem sequentialGap_one_or_two (seed : Int) (h : 0 ≤ seed) :
    sequentialGapOf seed = 1 ∨ sequentialGapOf seed = 2 := by
  unfold sequentialGapOf seedAfterSequential seedAfterTarget
  have h1 : (0 : Int) ≤ seed.tdiv 10 := Int.tdiv_nonneg h (by decide)
  have h2 : (0 : Int) ≤ (seed.tdiv 10).tdiv 2 := Int.tdiv_nonneg h1 (by decide)
  rw [Int.tmod_eq_emod h2 (by decide)]
  omega

/-- C7 witness: the amended statement applied at seed 0. -/
theorem sequentialGap_one_or_two_witness :
    sequentialGapOf 0 = 1 ∨ sequentialGapOf 0 = 2 :=
  sequentialGap_one_or_two 0 (by decide)

/-! ## Claim C8: the unit runner only dispatches the enabled scenarios -/

/-- Any tag the selection loop accepts is 0, 1 or 3: the loop skips every
member of `excludedTypes` and the draws are below `OP_COUNT`. -/
theorem pickOp_sound :
    ∀ (choices : List Nat) (fuel op : Nat), (∀ c ∈ choices, c < OP_COUNT) →
      pickOp fuel choices = some op → op = 0 ∨ op = 1 ∨ op = 3 := by
  intro choices
  induction choices with
  | nil => intro fuel op _ hpick; simp [pickOp] at hpick
  | cons c cs ih =>
    intro fuel op hlt hpick
    by_cases hc : c ∈ excludedTypes
    · cases fuel with
      | zero =>
        rw [show pickOp 0 (c :: cs) = if c ∈ excludedTypes then none else some c from rfl,
          if_pos hc] at hpick
        cases hpick
      | succ t =>
        rw [show pickOp (t + 1) (c :: cs) =
              if c ∈ excludedTypes then pickOp t cs else some c from rfl,
          if_pos hc] at hpick
        exact ih t op (fun x hx => hlt x (List.mem_cons_of_mem _ hx)) hpick
    · have hop : op = c := by
        cases fuel with
        | zero =>
          rw [show pickOp 0 (c :: cs) = if c ∈ excludedTypes then none else some c from rfl,
            if_neg hc] at hpick
          exact (Option.some.inj hpick).symm
        | succ t =>
          rw [show pickOp (t + 1) (c :: cs) =
                if c ∈ excludedTypes then pickOp t cs else some c from rfl,
            if_neg hc] at hpick
          exact (Option.some.inj hpick).symm
      subst hop
      have hc5 : op < 5 := hlt op (List.mem_cons_self op cs)
      simp only [excludedTypes, OP_COUNT, RANGES_MISALIGNED, RE_BLOBBIFY,
        List.mem_cons, List.mem_singleton, not_or] at hc hc5
      omega

/-- C8: any operation tag accepted by the selection loop of the unit runner
is `VERIFY_RANGE_UNIT`, `VERIFY_RANGE_GAP_UNIT` or `BLOBBIFY_IDEMPOTENT`;
`RANGES_MISALIGNED` and `RE_BLOBBIFY` are never selected, and the dispatch
chain therefore only ever runs those three scenario traces. -/
theorem unitRunner_dispatch (fuel : Nat) (choices : List Nat) (op : Nat)
    (range : KeyRange) (coinflip : Bool) (rangeCount rangeToNotBlobbify : Nat)
    (hlt : ∀ c ∈ choices, c < OP_COUNT) (hpick : pickOp fuel choices = some op) :
    (op = VERIFY_RANGE_UNIT ∨ op = VERIFY_RANGE_GAP_UNIT ∨
      op = BLOBBIFY_IDEMPOTENT) ∧
    op ≠ RANGES_MISALIGNED ∧ op ≠ RE_BLOBBIFY ∧
    (dispatchUnit op range coinflip rangeCount rangeToNotBlobbify =
        verifyRangeSteps range ∨
      dispatchUnit op range coinflip rangeCount rangeToNotBlobbify =
        verifyRangeGapSteps range rangeCount rangeToNotBlobbify ∨
      dispatchUnit op range coinflip rangeCount rangeToNotBlobbify =
        blobbifyIdempotentSteps range coinflip) := by
  have hval : (op = VERIFY_RANGE_UNIT ∨ op = VERIFY_RANGE_GAP_UNIT ∨
      op = BLOBBIFY_IDEMPOTENT) :=
    pickOp_sound choices fuel op hlt hpick
  refine ⟨hval, ?_, ?_, ?_⟩
  · rcases hval with rfl | rfl | rfl <;> decide
  · rcases hval with rfl | rfl | rfl <;> decide
  · rcases hval with rfl | rfl | rfl
    · exact Or.inl rfl
    · exact Or.inr (Or.inl rfl)
    · exact Or.inr (Or.inr rfl)

/-- C8 witness: the selection loop skips the excluded draw 2
(`RANGES_MISALIGNED`) and accepts the draw 3 (`BLOBBIFY_IDEMPOTENT`). -/
theorem unitRunner_dispatch_witness :
    ((3 : Nat) = VERIFY_RANGE_UNIT ∨ (3 : Nat) = VERIFY_RANGE_GAP_UNIT ∨
      (3 : Nat) = BLOBBIFY_IDEMPOTENT) ∧
    (3 : Nat) ≠ RANGES_MISALIGNED ∧ (3 : Nat) ≠ RE_BLOBBIFY ∧
    (dispatchUnit 3 ⟨[85], [86]⟩ false 2 0 = verifyRangeSteps ⟨[85], [86]⟩ ∨
      dispatchUnit 3 ⟨[85], [86]⟩ false 2 0 = verifyRangeGapSteps ⟨[85], [86]⟩ 2 0 ∨
      dispatchUnit 3 ⟨[85], [86]⟩ false 2 0 = blobbifyIdempotentSteps ⟨[85], [86]⟩ false) :=
  unitRunner_dispatch 1000 [2, 3] 3 ⟨[85], [86]⟩ false 2 0 (by decide) (by decide)

/-! ## Claim C9: the check phase only touches active ranges -/

/-- A single `checkRange` invocation only issues adapter calls on the range
it was started for. -/
theorem checkRangeCalls_avoids (x r : KeyRange) (b : Bool) (verifyTries granuleTries : Nat)
    (hne : x ≠ r) : checkerAvoids (checkRangeCalls x b verifyTries granuleTries) r = true := by
  rw [checkerAvoids, List.all_eq_true]
  intro s hs
  simp only [checkRangeCalls, List.mem_append, List.mem_replicate,
    List.mem_singleton] at hs
  have hsr : stepRange s = some x := by
    rcases hs with ((⟨_, rfl⟩ | rfl) | rfl) | ⟨_, rfl⟩ <;> rfl
  simp [hsr, hne]

/-- C9: the check phase spawns `checkRange(r, true)` for exactly the ranges
of the active list, and no adapter call of the check phase touches a range
that is in the inactive list but not in the active list. -/
theorem checkPhase_targets_active (activeRanges inactiveRanges : List KeyRange)
    (verifyTries granuleTries : Nat) (r : KeyRange)
    (_hin : r ∈ inactiveRanges) (hnotin : r ∉ activeRanges) :
    checkPhaseChecks activeRanges = activeRanges.map (fun x => (x, true)) ∧
    checkerAvoids (checkPhaseCalls activeRanges verifyTries granuleTries) r = true := by
  refine ⟨rfl, ?_⟩
  rw [checkerAvoids, List.all_eq_true]
  intro s hs
  rw [checkPhaseCalls] at hs
  simp only [List.mem_flatten, List.mem_map] at hs
  obtain ⟨l, ⟨x, hx, rfl⟩, hsl⟩ := hs
  have hx_ne : x ≠ r := fun h => hnotin (h ▸ hx)
  have hav := checkRangeCalls_avoids x r true verifyTries granuleTries hx_ne
  rw [checkerAvoids, List.all_eq_true] at hav
  exact hav s hsl

/-- C9 witness: a one-range active list and a disjoint one-range inactive
list. -/
theorem checkPhase_targets_active_witness :
    checkPhaseChecks [⟨[1], [2]⟩] = ([⟨[1], [2]⟩] : List KeyRange).map (fun x => (x, true)) ∧
    checkerAvoids (checkPhaseCalls [⟨[1], [2]⟩] 1 1) ⟨[3], [4]⟩ = true :=
  checkPhase_targets_active [⟨[1], [2]⟩] [⟨[3], [4]⟩] 1 1 ⟨[3], [4]⟩ (by decide) (by decide)

/-! ## Claim C10: every purge passes version 1 and an empty tenant -/

/-- Purge-parameter checking distributes over concatenation. -/
theorem purgesOk_append (a b : List Step) :
    purgesOk (a ++ b) = (purgesOk a && purgesOk b) :=
  List.all_append

/-- Purge-parameter checking over a flattened list of traces. -/
theorem purgesOk_flatten (ls : List (List Step)) (h : ∀ l ∈ ls, purgesOk l = true) :
    purgesOk ls.flatten = true := by
  induction ls with
  | nil => rfl
  | cons a as ih =>
    rw [List.flatten_cons, purgesOk_append, h a (List.mem_cons_self a as),
      ih fun l hl => h l (List.mem_cons_of_mem _ hl)]
    rfl

/-- The per-sub-range steps of `verifyRangeGapUnit` issue no purge. -/
theorem purgesOk_gapSub (boundaries : List Key) (g i : Nat) :
    purgesOk (gapSubSteps boundaries g i) = true := by
  simp only [gapSubSteps]
  split <;> rfl

/-- The tear-down helper purges with version 1, empty tenant (and
`force = true`). -/
theorem purgesOk_tearDown (r : KeyRange) : purgesOk (tearDownSteps r) = true := rfl

/-- C10: every `purgeBlobGranules` call issued anywhere in the workload —
by the driver when unregistering, by the tear-down helper, and by each of
the five scenario traces — passes purge version 1 and an empty tenant. -/
theorem all_purges_version_one (range r : KeyRange) (coinflip : Bool)
    (rangeCount rangeToNotBlobbify : Nat) :
    purgesOk (unregisterSteps r coinflip) = true ∧
    purgesOk (tearDownSteps r) = true ∧
    purgesOk (blobbifyIdempotentSteps range coinflip) = true ∧
    purgesOk (rangesMisalignedSteps range) = true ∧
    purgesOk (verifyRangeSteps range) = true ∧
    purgesOk (reBlobbifySteps range) = true ∧
    purgesOk (verifyRangeGapSteps range rangeCount rangeToNotBlobbify) = true := by
  refine ⟨?_, rfl, ?_, rfl, rfl, rfl, ?_⟩
  · cases coinflip <;> rfl
  · cases coinflip <;> rfl
  · simp only [verifyRangeGapSteps, purgesOk_append, Bool.and_eq_true]
    refine ⟨⟨⟨?_, rfl⟩, ?_⟩, ?_⟩
    · exact purgesOk_flatten _ fun l hl => by
        obtain ⟨i, _, rfl⟩ := List.mem_map.mp hl
        exact purgesOk_gapSub _ _ _
    · split
      · exact purgesOk_tearDown _
      · rfl
    · split
      · exact purgesOk_tearDown _
      · rfl

/-! ## Claim C3: the driver keeps the oracle consistent at suspension points

The driver actors `registerNewRange` and `unregisterRandomRange` are
embedded as small-step programs over the oracle state: each operation
produces the state visible at each of its suspension points.  The event
history records, latest first, blobbify calls that returned success and the
issuing of purge and unblobbify calls. -/

/-- An oracle-relevant adapter event of the driver. -/
inductive BGEvent
  | blobbifySuccess (r : KeyRange)
  | unblobbifyCall (r : KeyRange)
  | purgeCall (r : KeyRange)
deriving DecidableEq

/-- Whether, in the history (latest event first), some blobbify call has
returned true for `r` and no purge or unblobbify call has been issued on
`r` since. -/
def okRange : List BGEvent → KeyRange → Bool
  | [], _ => false
  | .blobbifySuccess x :: h, r => if x = r then true else okRange h r
  | .unblobbifyCall x :: h, r => if x = r then false else okRange h r
  | .purgeCall x :: h, r => if x = r then false else okRange h r

/-- The oracle state of one client together with the adapter-event
history. -/
structure DriverState where
  history : List BGEvent
  activeRanges : List KeyRange
  inactiveRanges : List KeyRange
deriving DecidableEq

/-- The `swapAndPop` helper of flow/Util: overwrite index `idx` with the
last element, then pop the last element. -/
def swapAndPop (l : List KeyRange) (idx : Nat) : List KeyRange :=
  (l.set idx (l.getD (l.length - 1) ⟨[], []⟩)).dropLast

/-- One operation of the driver loop `blobGranuleRangesClient`. -/
inductive DriverOp
  | register (r : KeyRange)
  | unregister (idx : Nat) (doPurge : Bool)
deriving DecidableEq

/-- Run one driver operation from `st`: the result lists the state visible
at each suspension point of the actor (the final state last), or is `none`
when the operation is invalid (an out-of-range index, or registering a
range that is already active, which the fresh key generator never
produces).  `registerNewRange` appends to the active list only in the same
atomic segment in which the blobbify call has returned success;
`unregisterRandomRange` removes from the active list before issuing the
optional purge and the unblobbify call, and appends to the inactive list
only after the unblobbify call has returned success. -/
def runOp (st : DriverState) : DriverOp → Option (List DriverState × DriverState)
  | .register r =>
    if r ∈ st.activeRanges then none
    else
      let st2 : DriverState :=
        ⟨.blobbifySuccess r :: st.history, st.activeRanges ++ [r], st.inactiveRanges⟩
      some ([st, st2], st2)
  | .unregister idx doPurge =>
    if h : idx < st.activeRanges.length then
      let r := st.activeRanges.get ⟨idx, h⟩
      let act2 := swapAndPop st.activeRanges idx
      if doPurge then
        let s1 : DriverState := ⟨.purgeCall r :: st.history, act2, st.inactiveRanges⟩
        let s3 : DriverState := ⟨.unblobbifyCall r :: s1.history, act2, st.inactiveRanges⟩
        let s4 : DriverState := ⟨s3.history, act2, st.inactiveRanges ++ [r]⟩
        some ([s1, s1, s3, s4], s4)
      else
        let s1 : DriverState := ⟨.unblobbifyCall r :: st.history, act2, st.inactiveRanges⟩
        let s2 : DriverState := ⟨s1.history, act2, st.inactiveRanges ++ [r]⟩
        some ([s1, s2], s2)
    else none

/-- Run a sequence of driver operations, collecting the state at every
suspension point. -/
def runOps : DriverState → List DriverOp → Option (List DriverState)
  | _, [] => some []
  | st, op :: ops =>
    match runOp st op with
    | none => none
    | some (snaps, stF) =>
      match runOps stF ops with
      | none => none
      | some rest => some (snaps ++ rest)

/-- The initial oracle state of a client. -/
def initState : DriverState := ⟨[], [], []⟩

/-- The claimed invariant at a suspension point: every range of the active
list has had a blobbify call return true for it with no purge or
unblobbify call issued on it since. -/
def stateOk (st : DriverState) : Bool :=
  st.activeRanges.all (okRange st.history)

/-- Length of a `swapAndPop` result for a valid index. -/
theorem swapAndPop_length (l : List KeyRange) (idx : Nat) :
    (swapAndPop l idx).length = l.length - 1 := by
  simp [swapAndPop]

/-- Element characterization of `swapAndPop`: position `idx` now holds the
former last element, every other surviving position is unchanged. -/
theorem swapAndPop_getElem (l : List KeyRange) (idx : Nat) (i : Nat)
    (hi : i < (swapAndPop l idx).length) (hlast : l.length - 1 < l.length)
    (hil : i < l.length) :
    (swapAndPop l idx).get ⟨i, hi⟩ =
      if idx = i then l.get ⟨l.length - 1, hlast⟩ else l.get ⟨i, hil⟩ := by
  have hd : l.getD (l.length - 1) ⟨[], []⟩ = l.get ⟨l.length - 1, hlast⟩ := by
    rw [List.getD_eq_getElem?_getD, List.getElem?_eq_getElem hlast]
    rfl
  simp only [List.get_eq_getElem, swapAndPop, List.getElem_dropLast,
    List.getElem_set, hd]

/-- Members of a `swapAndPop` result were members of the input. -/
theorem swapAndPop_subset (l : List KeyRange) (idx : Nat) (h : idx < l.length)
    (x : KeyRange) (hx : x ∈ swapAndPop l idx) : x ∈ l := by
  have hlast : l.length - 1 < l.length := by omega
  obtain ⟨i, hi, heq⟩ := List.mem_iff_getElem.mp hx
  have hil : i < l.length := by
    rw [swapAndPop_length] at hi
    omega
  rw [show (swapAndPop l idx)[i] = (swapAndPop l idx).get ⟨i, hi⟩ from rfl,
    swapAndPop_getElem l idx i hi hlast hil] at heq
  rw [← heq]
  split <;> exact List.get_mem l _ _

/-- For a duplicate-free list, the removed element is gone after
`swapAndPop`. -/
theorem swapAndPop_not_mem (l : List KeyRange) (idx : Nat) (h : idx < l.length)
    (hnd : l.Nodup) : l.get ⟨idx, h⟩ ∉ swapAndPop l idx := by
  intro hx
  have hlast : l.length - 1 < l.length := by omega
  obtain ⟨i, hi, heq⟩ := List.mem_iff_getElem.mp hx
  have hilen : i < l.length - 1 := by rw [swapAndPop_length] at hi; exact hi
  have hil : i < l.length := by omega
  rw [show (swapAndPop l idx)[i] = (swapAndPop l idx).get ⟨i, hi⟩ from rfl,
    swapAndPop_getElem l idx i hi hlast hil] at heq
  by_cases hcase : idx = i
  · rw [if_pos hcase] at heq
    have := (List.Nodup.get_inj_iff hnd).mp heq
    rw [Fin.mk.injEq] at this
    omega
  · rw [if_neg hcase] at heq
    have := (List.Nodup.get_inj_iff hnd).mp heq
    rw [Fin.mk.injEq] at this
    omega

/-- `swapAndPop` preserves freedom from duplicates. -/
theorem swapAndPop_nodup (l : List KeyRange) (idx : Nat) (h : idx < l.length)
    (hnd : l.Nodup) : (swapAndPop l idx).Nodup := by
  have hlast : l.length - 1 < l.length := by omega
  rw [List.nodup_iff_injective_get]
  intro ⟨i, hi⟩ ⟨j, hj⟩ heq
  have hilen : i < l.length - 1 := by rw [swapAndPop_length] at hi; exact hi
  have hjlen : j < l.length - 1 := by rw [swapAndPop_length] at hj; exact hj
  have hil : i < l.length := by omega
  have hjl : j < l.length := by omega
  rw [swapAndPop_getElem l idx i hi hlast hil,
    swapAndPop_getElem l idx j hj hlast hjl] at heq
  rw [Fin.mk.injEq]
  by_cases hci : idx = i <;> by_cases hcj : idx = j
  · omega
  · rw [if_pos hci, if_neg hcj] at heq
    have := (List.Nodup.get_inj_iff hnd).mp heq
    rw [Fin.mk.injEq] at this
    omega
  · rw [if_neg hci, if_pos hcj] at heq
    have := (List.Nodup.get_inj_iff hnd).mp heq
    rw [Fin.mk.injEq] at this
    omega
  · rw [if_neg hci, if_neg hcj] at heq
    have := (List.Nodup.get_inj_iff hnd).mp heq
    rw [Fin.mk.injEq] at this
    omega

/-- One driver operation preserves the oracle invariant, at every one of its
suspension points and at its final state. -/
theorem runOp_preserves (st : DriverState) (op : DriverOp)
    (snaps : List DriverState) (stF : DriverState)
    (hnd : st.activeRanges.Nodup)
    (hok : ∀ x ∈ st.activeRanges, okRange st.history x = true)
    (hrun : runOp st op = some (snaps, stF)) :
    (∀ s ∈ snaps, s.activeRanges.Nodup ∧
      ∀ x ∈ s.activeRanges, okRange s.history x = true) ∧
    (stF.activeRanges.Nodup ∧
      ∀ x ∈ stF.activeRanges, okRange stF.history x = true) := by
  cases op with
  | register r =>
    simp only [runOp] at hrun
    by_cases hmem : r ∈ st.activeRanges
    · rw [if_pos hmem] at hrun
      cases hrun
    · rw [if_neg hmem] at hrun
      obtain ⟨rfl, rfl⟩ := Prod.mk.injEq .. ▸ Option.some.inj hrun
      have hnd2 : (st.activeRanges ++ [r]).Nodup := by
        rw [List.nodup_append]
        exact ⟨hnd, List.nodup_singleton r,
          fun a ha hb => hmem ((List.mem_singleton.mp hb) ▸ ha)⟩
      have hok2 : ∀ x ∈ st.activeRanges ++ [r],
          okRange (.blobbifySuccess r :: st.history) x = true := by
        intro x hx
        rcases List.mem_append.mp hx with hx1 | hx2
        · simp only [okRange]
          split
          · rfl
          · exact hok x hx1
        · rw [List.mem_singleton.mp hx2]
          simp [okRange]
      refine ⟨?_, hnd2, hok2⟩
      intro s hs
      rcases List.mem_cons.mp hs with rfl | hs2
      · exact ⟨hnd, hok⟩
      · rw [List.mem_singleton.mp hs2]
        exact ⟨hnd2, hok2⟩
  | unregister idx doPurge =>
    simp only [runOp] at hrun
    rcases Nat.lt_or_ge idx st.activeRanges.length with hidx | hidx
    · rw [dif_pos hidx] at hrun
      have hsub := swapAndPop_subset st.activeRanges idx hidx
      have hnm := swapAndPop_not_mem st.activeRanges idx hidx hnd
      have hnd2 := swapAndPop_nodup st.activeRanges idx hidx hnd
      have hokpre : ∀ x ∈ swapAndPop st.activeRanges idx,
          okRange st.history x = true := fun x hx => hok x (hsub x hx)
      have hne : ∀ x ∈ swapAndPop st.activeRanges idx,
          st.activeRanges.get ⟨idx, hidx⟩ ≠ x := by
        intro x hx heq
        exact hnm (heq ▸ hx)
      have hok1 : ∀ x ∈ swapAndPop st.activeRanges idx,
          okRange (.purgeCall (st.activeRanges.get ⟨idx, hidx⟩) :: st.history) x
            = true := by
        intro x hx
        simp only [okRange]
        rw [if_neg (hne x hx)]
        exact hokpre x hx
      have hok2 : ∀ x ∈ swapAndPop st.activeRanges idx,
          okRange (.unblobbifyCall (st.activeRanges.get ⟨idx, hidx⟩) ::
            .purgeCall (st.activeRanges.get ⟨idx, hidx⟩) :: st.history) x
            = true := by
        intro x hx
        simp only [okRange]
        rw [if_neg (hne x hx), if_neg (hne x hx)]
        exact hokpre x hx
      have hok3 : ∀ x ∈ swapAndPop st.activeRanges idx,
          okRange (.unblobbifyCall (st.activeRanges.get ⟨idx, hidx⟩) ::
            st.history) x = true := by
        intro x hx
        simp only [okRange]
        rw [if_neg (hne x hx)]
        exact hokpre x hx
      cases doPurge with
      | true =>
        rw [if_pos rfl] at hrun
        obtain ⟨rfl, rfl⟩ := Prod.mk.injEq .. ▸ Option.some.inj hrun
        refine ⟨?_, hnd2, hok2⟩
        intro s hs
        simp only [List.mem_cons, List.not_mem_nil, or_false] at hs
        rcases hs with rfl | rfl | rfl | rfl
        · exact ⟨hnd2, hok1⟩
        · exact ⟨hnd2, hok1⟩
        · exact ⟨hnd2, hok2⟩
        · exact ⟨hnd2, hok2⟩
      | false =>
        rw [if_neg (by simp)] at hrun
        obtain ⟨rfl, rfl⟩ := Prod.mk.injEq .. ▸ Option.some.inj hrun
        refine ⟨?_, hnd2, hok3⟩
        intro s hs
        simp only [List.mem_cons, List.not_mem_nil, or_false] at hs
        rcases hs with rfl | rfl
        · exact ⟨hnd2, hok3⟩
        · exact ⟨hnd2, hok3⟩
    · rw [dif_neg (Nat.not_lt.mpr hidx)] at hrun
      cases hrun

/-- Any run of driver operations from an invariant-satisfying state keeps
the invariant at every suspension point. -/
theorem runOps_ok : ∀ (ops : List DriverOp) (st : DriverState)
    (snaps : List DriverState), st.activeRanges.Nodup →
    (∀ x ∈ st.activeRanges, okRange st.history x = true) →
    runOps st ops = some snaps → ∀ s ∈ snaps, stateOk s = true := by
  intro ops
  induction ops with
  | nil =>
    intro st snaps _ _ hrun s hs
    simp only [runOps] at hrun
    obtain rfl := Option.some.inj hrun
    cases hs
  | cons op ops ih =>
    intro st snaps hnd hok hrun
    simp only [runOps] at hrun
    cases hop : runOp st op with
    | none => rw [hop] at hrun; cases hrun
    | some p =>
      obtain ⟨opSnaps, stF⟩ := p
      rw [hop] at hrun
      dsimp only at hrun
      cases hrest : runOps stF ops with
      | none =>
        rw [hrest] at hrun
        dsimp only at hrun
        cases hrun
      | some rest =>
        rw [hrest] at hrun
        dsimp only at hrun
        obtain rfl := Option.some.inj hrun
        have hpre := runOp_preserves st op opSnaps stF hnd hok hop
        intro s hs
        rcases List.mem_append.mp hs with h1 | h2
        · rw [stateOk, List.all_eq_true]
          exact (hpre.1 s h1).2
        · exact ih stF rest hpre.2.1 hpre.2.2 hrest s h2

/-- C3: starting from the empty oracle, at every suspension point of any
valid sequence of driver operations, every range of the active list has had
a blobbify call return true for it and no purge or unblobbify call has been
issued on it since — the orderings enforced by `registerNewRange` (append
to active only after blobbify success) and `unregisterRandomRange` (remove
from active before the purge or unblobbify call, append to inactive only
after unblobbify success). -/
theorem driver_oracle_invariant (ops : List DriverOp) (snaps : List DriverState)
    (hrun : runOps initState ops = some snaps) :
    snaps.all stateOk = true := by
  rw [List.all_eq_true]
  exact fun s hs =>
    runOps_ok ops initState snaps (by simp [initState]) (by simp [initState]) hrun s hs

/-- C3 witness: a register followed by an unregister with force purge; every
intermediate suspension-point state satisfies the invariant. -/
theorem driver_oracle_invariant_witness :
    ([⟨[], [], []⟩,
      ⟨[.blobbifySuccess ⟨[1], [2]⟩], [⟨[1], [2]⟩], []⟩,
      ⟨[.purgeCall ⟨[1], [2]⟩, .blobbifySuccess ⟨[1], [2]⟩], [], []⟩,
      ⟨[.purgeCall ⟨[1], [2]⟩, .blobbifySuccess ⟨[1], [2]⟩], [], []⟩,
      ⟨[.unblobbifyCall ⟨[1], [2]⟩, .purgeCall ⟨[1], [2]⟩,
          .blobbifySuccess ⟨[1], [2]⟩], [], []⟩,
      ⟨[.unblobbifyCall ⟨[1], [2]⟩, .purgeCall ⟨[1], [2]⟩,
          .blobbifySuccess ⟨[1], [2]⟩], [], [⟨[1], [2]⟩]⟩] :
      List DriverState).all stateOk = true :=
  driver_oracle_invariant [.register ⟨[1], [2]⟩, .unregister 0 true] _ (by decide)

/-! ## Claim C4: cross-client disjointness of sequential driver ranges -/

/-- The strict lexicographic order never compares a key below itself. -/
theorem keyLt_irrefl : ∀ a : Key, keyLt a a = false := by
  intro a
  induction a with
  | nil => rfl
  | cons x as ih => simp [keyLt, ih]

/-- Transitivity of the strict lexicographic order. -/
theorem keyLt_trans : ∀ a b c : Key, keyLt a b = true → keyLt b c = true →
    keyLt a c = true := by
  intro a
  induction a with
  | nil =>
    intro b c hab hbc
    cases b with
    | nil => simp [keyLt] at hab
    | cons y bs =>
      cases c with
      | nil => simp [keyLt] at hbc
      | cons z cs => simp [keyLt]
  | cons x as ih =>
    intro b c hab hbc
    cases b with
    | nil => simp [keyLt] at hab
    | cons y bs =>
      cases c with
      | nil => simp [keyLt] at hbc
      | cons z cs =>
        simp only [keyLt, Bool.or_eq_true, Bool.and_eq_true,
          decide_eq_true_eq] at hab hbc ⊢
        rcases hab with hxy | ⟨rfl, hab2⟩ <;> rcases hbc with hyz | ⟨rfl, hbc2⟩
        · exact Or.inl (Nat.lt_trans hxy hyz)
        · exact Or.inl hxy
        · exact Or.inl hyz
        · exact Or.inr ⟨rfl, ih bs cs hab2 hbc2⟩

/-- A strict comparison composed with a non-strict one stays strict. -/
theorem keyLt_of_lt_of_le (a b c : Key) (hab : keyLt a b = true)
    (hbc : keyLe b c = true) : keyLt a c = true := by
  rw [keyLe, Bool.or_eq_true, decide_eq_true_eq] at hbc
  rcases hbc with h | rfl
  · exact keyLt_trans a b c hab h
  · exact hab

/-- Totality of the lexicographic comparison. -/
theorem keyLt_total : ∀ a b : Key, a = b ∨ keyLt a b = true ∨ keyLt b a = true := by
  intro a
  induction a with
  | nil =>
    intro b
    cases b with
    | nil => exact Or.inl rfl
    | cons y bs => exact Or.inr (Or.inl rfl)
  | cons x as ih =>
    intro b
    cases b with
    | nil => exact Or.inr (Or.inr rfl)
    | cons y bs =>
      rcases Nat.lt_trichotomy x y with h | rfl | h
      · exact Or.inr (Or.inl (by simp [keyLt, h]))
      · rcases ih bs with rfl | h2 | h2
        · exact Or.inl rfl
        · exact Or.inr (Or.inl (by simp [keyLt, h2]))
        · exact Or.inr (Or.inr (by simp [keyLt, h2]))
      · exact Or.inr (Or.inr (by simp [keyLt, h]))

/-- `strinc` of a key whose head is not `0xff` is nonempty. -/
theorem strinc_cons_ne_nil (a : Nat) (rest : Key) (ha : a ≠ 255) :
    strinc (a :: rest) ≠ [] := by
  simp only [strinc]
  split
  · simp [ha]
  · simp

/-- `strinc` steps over a head byte when the tail increments to something
nonempty. -/
theorem strinc_cons_of_ne_nil (a : Nat) (rest : Key) (h : strinc rest ≠ []) :
    strinc (a :: rest) = a :: strinc rest := by
  simp only [strinc]
  rw [if_neg]
  simp [List.isEmpty_iff, h]

/-- The least upper bound property used for prefix ranges: for equal-length
keys without `0xff` bytes, `a < b` implies `strinc a ≤ b`. -/
theorem keyLe_strinc : ∀ a b : Key, a.length = b.length → (∀ x ∈ a, x < 255) →
    keyLt a b = true → keyLe (strinc a) b = true := by
  intro a
  induction a with
  | nil =>
    intro b hlen _ hab
    cases b with
    | nil => simp [keyLt] at hab
    | cons y bs => simp at hlen
  | cons x as ih =>
    intro b hlen h255 hab
    cases b with
    | nil => simp [keyLt] at hab
    | cons y bs =>
      have hx : x ≠ 255 := Nat.ne_of_lt (h255 x (List.mem_cons_self x as))
      cases as with
      | nil =>
        have hbs : bs = [] := by
          cases bs with
          | nil => rfl
          | cons z zs => simp at hlen
        subst hbs
        have hxy : x < y := by
          simp only [keyLt, Bool.or_eq_true, Bool.and_eq_true,
            decide_eq_true_eq] at hab
          rcases hab with h | ⟨_, h⟩
          · exact h
          · simp [keyLt] at h
        have hs : strinc [x] = [x + 1] := by simp [strinc, hx]
        rw [hs]
        simp [keyLe, keyLt]
        omega
      | cons a2 as2 =>
        have ha2 : a2 ≠ 255 := Nat.ne_of_lt (h255 a2 (by simp))
        have hnn : strinc (a2 :: as2) ≠ [] := strinc_cons_ne_nil a2 as2 ha2
        rw [strinc_cons_of_ne_nil x (a2 :: as2) hnn]
        simp only [keyLt, Bool.or_eq_true, Bool.and_eq_true,
          decide_eq_true_eq] at hab
        rcases hab with hxy | ⟨rfl, hab2⟩
        · simp only [keyLe, keyLt, Bool.or_eq_true, Bool.and_eq_true,
            decide_eq_true_eq]
          exact Or.inl (Or.inl hxy)
        · have hlen2 : (a2 :: as2).length = bs.length := by simpa using hlen
          have h255b : ∀ z ∈ a2 :: as2, z < 255 :=
            fun z hz => h255 z (List.mem_cons_of_mem _ hz)
          have hle := ih bs hlen2 h255b hab2
          simp only [keyLe, Bool.or_eq_true, decide_eq_true_eq] at hle ⊢
          rcases hle with h | h
          · exact Or.inl (by simp [keyLt, h])
          · exact Or.inr (by rw [h])

/-- Prefix ranges of equal-length `0xff`-free keys are disjoint, ordered
case. -/
theorem ranges_disjoint_of_lt (a b : Key) (hlen : a.length = b.length)
    (ha : ∀ x ∈ a, x < 255) (hab : keyLt a b = true) :
    keyRangesDisjoint ⟨a, strinc a⟩ ⟨b, strinc b⟩ := by
  intro k hk
  obtain ⟨h1, h2⟩ := hk
  simp only [inRange, Bool.and_eq_true] at h1 h2
  have hsb := keyLe_strinc a b hlen ha hab
  have hkb : keyLt k b = true := keyLt_of_lt_of_le k (strinc a) b h1.2 hsb
  have hkk : keyLt k k = true := keyLt_of_lt_of_le k b k hkb h2.1
  rw [keyLt_irrefl] at hkk
  cases hkk

/-- Prefix ranges of distinct equal-length `0xff`-free keys are disjoint. -/
theorem ranges_disjoint_of_ne (a b : Key) (hlen : a.length = b.length)
    (ha : ∀ x ∈ a, x < 255) (hb : ∀ x ∈ b, x < 255) (hne : a ≠ b) :
    keyRangesDisjoint ⟨a, strinc a⟩ ⟨b, strinc b⟩ := by
  rcases keyLt_total a b with rfl | h | h
  · exact absurd rfl hne
  · exact ranges_disjoint_of_lt a b hlen ha h
  · intro k hk
    exact ranges_disjoint_of_lt b a hlen.symm hb h k ⟨hk.2, hk.1⟩

/-- Fixed-width hexadecimal rendering has the requested width. -/
theorem hexPad_length : ∀ w v : Nat, (hexPad w v).length = w := by
  intro w
  induction w with
  | zero => intro v; rfl
  | succ n ih => intro v; simp [hexPad, ih]

/-- All bytes of a hexadecimal rendering stay below `0xff`. -/
theorem hexPad_lt255 : ∀ w v : Nat, ∀ x ∈ hexPad w v, x < 255 := by
  intro w
  induction w with
  | zero => intro v x hx; cases hx
  | succ n ih =>
    intro v x hx
    rcases List.mem_append.mp hx with h | h
    · exact ih _ x h
    · rw [List.mem_singleton.mp h]
      have hd : v % 16 < 16 := Nat.mod_lt v (by decide)
      unfold hexDigitChar
      split <;> omega

/-- Distinct digits below 16 render to distinct characters. -/
theorem hexDigitChar_inj (d1 d2 : Nat) (h1 : d1 < 16) (h2 : d2 < 16)
    (heq : hexDigitChar d1 = hexDigitChar d2) : d1 = d2 := by
  by_cases c1 : d1 < 10 <;> by_cases c2 : d2 < 10 <;>
    simp only [hexDigitChar, if_pos, if_neg, c1, c2, if_true, if_false] at heq <;>
    omega

/-- The fixed-width hexadecimal rendering is injective below `16 ^ w`. -/
theorem hexPad_inj : ∀ w a b : Nat, a < 16 ^ w → b < 16 ^ w →
    hexPad w a = hexPad w b → a = b := by
  intro w
  induction w with
  | zero =>
    intro a b ha hb _
    simp only [pow_zero] at ha hb
    omega
  | succ n ih =>
    intro a b ha hb heq
    simp only [hexPad] at heq
    have hlen : (hexPad n (a / 16)).length = (hexPad n (b / 16)).length := by
      rw [hexPad_length, hexPad_length]
    obtain ⟨hpre, hlast⟩ := List.append_inj heq hlen
    have hdc : hexDigitChar (a % 16) = hexDigitChar (b % 16) := by
      injection hlast
    have hmod : a % 16 = b % 16 :=
      hexDigitChar_inj _ _ (Nat.mod_lt a (by decide)) (Nat.mod_lt b (by decide)) hdc
    have hda : a / 16 < 16 ^ n :=
      (Nat.div_lt_iff_lt_mul (by decide)).mpr (by rw [← pow_succ]; exact ha)
    have hdb : b / 16 < 16 ^ n :=
      (Nat.div_lt_iff_lt_mul (by decide)).mpr (by rw [← pow_succ]; exact hb)
    have hdiv : a / 16 = b / 16 := ih (a / 16) (b / 16) hda hdb hpre
    have hma := Nat.div_add_mod a 16
    have hmb := Nat.div_add_mod b 16
    omega

/-- The driver key has ten bytes: `"R_"` plus eight hexadecimal digits. -/
theorem driverKey_length (v : Nat) : (driverKey v).length = 10 := by
  simp [driverKey, hexPad_length]

/-- No byte of a driver key is `0xff`. -/
theorem driverKey_lt255 (v : Nat) : ∀ x ∈ driverKey v, x < 255 := by
  intro x hx
  rcases List.mem_append.mp hx with h | h
  · simp only [List.mem_cons, List.not_mem_nil, or_false] at h
    rcases h with rfl | rfl <;> omega
  · exact hexPad_lt255 8 v x h

/-- Driver keys of distinct counter values below `2 ^ 32` differ. -/
theorem driverKey_inj (v w : Nat) (hv : v < 4294967296) (hw : w < 4294967296)
    (heq : driverKey v = driverKey w) : v = w := by
  simp only [driverKey] at heq
  have h16 : (16 : Nat) ^ 8 = 4294967296 := by norm_num
  exact hexPad_inj 8 v w (h16 ▸ hv) (h16 ▸ hw) (List.append_cancel_left heq)

/-- C4: with sequential key generation, any range produced by client 0 is
disjoint from any range produced by client 1, as long as the client-0
counter stays below the `10000000 * clientId` offset of client 1 and the
client-1 counter fits the eight hexadecimal digits of the key format. -/
theorem client_ranges_disjoint (gap i j : Nat)
    (h0 : clientKeyVal 0 gap i < 10000000)
    (h1 : clientKeyVal 1 gap j < 4294967296) :
    keyRangesDisjoint (driverRange (clientKeyVal 0 gap i))
      (driverRange (clientKeyVal 1 gap j)) := by
  have hge : 10000000 ≤ clientKeyVal 1 gap j := by
    unfold clientKeyVal
    omega
  have hvne : clientKeyVal 0 gap i ≠ clientKeyVal 1 gap j := by omega
  have hkne : driverKey (clientKeyVal 0 gap i) ≠ driverKey (clientKeyVal 1 gap j) := by
    intro h
    exact hvne (driverKey_inj _ _ (by omega) h1 h)
  exact ranges_disjoint_of_ne _ _
    (by rw [driverKey_length, driverKey_length])
    (driverKey_lt255 _) (driverKey_lt255 _) hkne

/-- C4 witness: the first sequential key of client 0 against the first
sequential key of client 1, with stride 1. -/
theorem client_ranges_disjoint_witness :
    keyRangesDisjoint (driverRange (clientKeyVal 0 1 1))
      (driverRange (clientKeyVal 1 1 1)) :=
  client_ranges_disjoint 1 1 1 (by norm_num [clientKeyVal]) (by norm_num [clientKeyVal])

end BlobGranuleRanges
